import Mathlib

/-!
Verification of the Cinder `ci::audio` graph engine specification.

The repository ships the audio guide (`docs/guides/audio/audio.dox`) and a
codec header; the engine implementations themselves (`Param`, `Buffer`,
`Node`, `Context`, the monitor nodes) are not part of the sources at hand,
so every definition below is modelled from the specification's description
of those components.  Sample values are modelled as exact rationals (the
code computes in single-precision float; the spec's contracts are about the
ideal arithmetic), machine sizes as `Nat`.
-/

namespace Cinder

/-! ## Param: sample-accurate automation (spec §4.3) -/

/-- Modelled from the spec: a scheduled ramp event of a `Param` (missing
source `cinder/audio/Param.h`): "each: start time offset, duration, target
value, interpolation function"; we store the absolute begin/end times and
begin/end values that the evaluation loop uses. -/
structure ParamEvent where
  timeBegin : ℚ
  timeEnd : ℚ
  valueBegin : ℚ
  valueEnd : ℚ

/-- Modelled from the spec: the default linear ramp function, evaluated at
normalized progress `t ∈ [0,1]`. -/
def rampLinear (t : ℚ) : ℚ := t

/-- Modelled from the spec: `applyRamp(targetValue, duration[, delay])`
"schedules an interpolation event starting `delay` seconds from now running
for `duration` seconds ending at `targetValue`"; `now` is the current audio
time and `value` the Param's current value. -/
def applyRamp (now value target duration : ℚ) : ParamEvent :=
  ⟨now, now + duration, value, target⟩

/-- Modelled from the spec: evaluation of a chronologically ordered event
queue at absolute time `t` (missing source `Param::eval`).  Before the first
event the current value `v` holds; within an active event the (linear) ramp
function is evaluated at normalized progress; "once an event's duration
elapses the value holds at its target until the next queued event begins". -/
def evalEvents : List ParamEvent → ℚ → ℚ → ℚ
  | [], v, _ => v
  | e :: rest, v, t =>
    if t < e.timeBegin then v
    else if t < e.timeEnd then
      e.valueBegin +
        (e.valueEnd - e.valueBegin) *
          rampLinear ((t - e.timeBegin) / (e.timeEnd - e.timeBegin))
    else evalEvents rest e.valueEnd t

/-- Modelled from the spec: the per-sample evaluated sequence of a `Param`
holding event queue `events` and current value `v`, at samplerate `sr`;
sample index `n` corresponds to audio time `n / sr` seconds. -/
def paramSample (events : List ParamEvent) (v sr : ℚ) (n : ℕ) : ℚ :=
  evalEvents events v ((n : ℚ) / sr)

/-- Modelled from the spec: block-wise evaluation — "on every processing
block the automation engine produces one value per sample frame for the
block's duration"; a block of `len` frames starting at elapsed sample count
`start`. -/
def paramEvalBlock (events : List ParamEvent) (v sr : ℚ) (start len : ℕ) :
    List ℚ :=
  (List.range len).map fun i => paramSample events v sr (start + i)

/-- Modelled from the spec: a run of consecutive callbacks starting at
elapsed sample count `start`, the `k`-th callback processing a block of
`blockSizes[k]` frames; the produced per-sample values are concatenated. -/
def paramEvalRunFrom (events : List ParamEvent) (v sr : ℚ) :
    ℕ → List ℕ → List ℚ
  | _, [] => []
  | start, len :: rest =>
      paramEvalBlock events v sr start len ++
        paramEvalRunFrom events v sr (start + len) rest

/-- Modelled from the spec: a whole run of callbacks from elapsed sample
count zero; callback timing jitter shows up as a different partition of the
sample timeline into blocks. -/
def paramEvalRun (events : List ParamEvent) (v sr : ℚ)
    (blockSizes : List ℕ) : List ℚ :=
  paramEvalRunFrom events v sr 0 blockSizes

/-! ## Context: enable/disable and audio time (spec §4.2, guide §context) -/

/-- Modelled from the spec: the observable per-callback state of a
`Context` and its owned graph (missing source `cinder/audio/Context.h`):
the enabled flag, the number of frames processed so far ("audio time"),
each owned Node's Param evaluation cursor (elapsed samples seen by its
automation), and each Node's individual enabled flag. -/
structure ContextState where
  enabled : Bool
  numProcessedFrames : ℕ
  paramCursor : ℕ → ℕ
  nodeEnabled : ℕ → Bool

/-- Modelled from the spec: `Context::disable()` — "disabling the Context
suspends the entire traversal". -/
def contextDisable (s : ContextState) : ContextState :=
  { s with enabled := false }

/-- Modelled from the spec: one hardware callback of `framesPerBlock`
frames.  When the Context is enabled the traversal runs and audio time and
every Param cursor advance by one block; when it is disabled "no Node
processes and no Param advances", whether or not individual Nodes are
enabled. -/
def contextCallback (framesPerBlock : ℕ) (s : ContextState) : ContextState :=
  if s.enabled then
    { s with
      numProcessedFrames := s.numProcessedFrames + framesPerBlock
      paramCursor := fun node => s.paramCursor node + framesPerBlock }
  else s

/-! ## BufferDynamic: growable sample storage (spec §4.1, guide §resizing) -/

/-- Modelled from the spec: the growable `BufferDynamic` variant (missing
source `cinder/audio/Buffer.h`).  `mAllocatedSize` is the capacity of the
backing allocation in samples; `allocationId` abstracts the storage
address — it changes exactly when the backing store is reallocated. -/
structure BufferDynamic where
  mNumFrames : ℕ
  mNumChannels : ℕ
  mAllocatedSize : ℕ
  allocationId : ℕ

/-- Logical size of a buffer: "total storage size = frames × channels". -/
def BufferDynamic.size (b : BufferDynamic) : ℕ :=
  b.mNumFrames * b.mNumChannels

/-- Modelled from the spec: `BufferDynamic::setSize( numFrames,
numChannels )` — "a resize request whose required storage
(frames×channels) is ≤ current capacity never reallocates; only a larger
requirement triggers reallocation, sized to the new requirement exactly". -/
def BufferDynamic.setSize (b : BufferDynamic) (frames channels : ℕ) :
    BufferDynamic :=
  let required := frames * channels
  if required ≤ b.mAllocatedSize then
    { b with mNumFrames := frames, mNumChannels := channels }
  else
    { mNumFrames := frames
      mNumChannels := channels
      mAllocatedSize := required
      allocationId := b.allocationId + 1 }

/-- Modelled from the spec: `BufferDynamic::setNumFrames`. -/
def BufferDynamic.setNumFrames (b : BufferDynamic) (frames : ℕ) :
    BufferDynamic :=
  b.setSize frames b.mNumChannels

/-- Modelled from the spec: `BufferDynamic::setNumChannels`. -/
def BufferDynamic.setNumChannels (b : BufferDynamic) (channels : ℕ) :
    BufferDynamic :=
  b.setSize b.mNumFrames channels

/-- Modelled from the spec: `BufferDynamic::shrinkToFit()` — "the only
operation that reduces capacity, reducing it to exactly the current logical
size"; when the capacity actually shrinks the store is reallocated. -/
def BufferDynamic.shrinkToFit (b : BufferDynamic) : BufferDynamic :=
  if b.mAllocatedSize = b.size then b
  else { b with mAllocatedSize := b.size, allocationId := b.allocationId + 1 }

/-! ## Node graph: pull traversal, cycles, input summing (spec §4.2) -/

/-- Modelled from the spec: the memoized depth-first pull traversal driven
by `Node::pullInputs` (missing source `cinder/audio/Node.cpp`).  `inputs n`
is the list of Nodes contributing to `n`'s inputs; `visited` is the set of
Nodes whose processing step already ran this callback (the per-block memo);
`pending` are the Nodes still to pull; `fuel` bounds the recursion depth
(each level of descent marks a previously unvisited Node first, so a fuel
of the Node count is never exhausted).  The result is the list of all Nodes
whose processing step ran. -/
def pullList (inputs : ℕ → List ℕ) (fuel : ℕ) (pending visited : List ℕ) :
    List ℕ :=
  match pending with
  | [] => visited
  | n :: rest =>
    if n ∈ visited then pullList inputs fuel rest visited
    else
      match fuel with
      | 0 => pullList inputs 0 rest (n :: visited)
      | fuel' + 1 =>
          pullList inputs (fuel' + 1) rest
            (pullList inputs fuel' (inputs n) (n :: visited))
termination_by (fuel, pending.length)

/-- Modelled from the spec: one callback of the `Context` scheduling —
"the Context's output endpoint is invoked once per hardware callback
period" and recursively pulled; "a Node absent from the path reachable
from the output but registered in the Context's auto-pull set is still
pulled once per callback".  `nodes` is the Context's registry of owned
Nodes. -/
def processedThisCallback (inputs : ℕ → List ℕ) (nodes : List ℕ)
    (output : ℕ) (autoPull : List ℕ) : List ℕ :=
  pullList inputs nodes.length (output :: autoPull) []

/-- `Reaches inputs n m`: Node `m` is reachable from Node `n` by
recursively following input connections (the pull traversal's paths). -/
inductive Reaches (inputs : ℕ → List ℕ) : ℕ → ℕ → Prop
  | refl (n : ℕ) : Reaches inputs n n
  | step {n i m : ℕ} : i ∈ inputs n → Reaches inputs i m → Reaches inputs n m

/-- The input-contributor function induced by an edge list; the pair
`(dst, src)` records that `src` was connected into an input of `dst`. -/
def inputsOf (edges : List (ℕ × ℕ)) (n : ℕ) : List ℕ :=
  (edges.filter fun e => e.1 == n).map fun e => e.2

/-- `ReachesVia inputs ok n m`: there is a pull path from `n` to `m` every
Node of which (endpoints included) satisfies `ok`.  With
`ok = (¬ supportsCycles ·)` and the new edge `dst → src` this is exactly "a
cycle in which no participating Node declares cycle tolerance". -/
inductive ReachesVia (inputs : ℕ → List ℕ) (ok : ℕ → Bool) : ℕ → ℕ → Prop
  | refl (n : ℕ) : ok n = true → ReachesVia inputs ok n n
  | step {n i m : ℕ} : ok n = true → i ∈ inputs n →
      ReachesVia inputs ok i m → ReachesVia inputs ok n m

/-- Input contributors restricted to cycle-intolerant Nodes: the search
space of the connect-time cycle check. -/
def inputsIntolerant (edges : List (ℕ × ℕ)) (supportsCycles : ℕ → Bool)
    (n : ℕ) : List ℕ :=
  if supportsCycles n then []
  else (inputsOf edges n).filter fun i => !supportsCycles i

/-- Modelled from the spec: the connect-time cycle check (missing source
`Node::connectInput` / `Node::checkCycle`): connecting `src` into an input
of `dst` closes an illegal cycle exactly when some pull path leads from
`src` back to `dst` through cycle-intolerant Nodes only. -/
def detectIntolerantCycle (nodes : List ℕ) (edges : List (ℕ × ℕ))
    (supportsCycles : ℕ → Bool) (src dst : ℕ) : Bool :=
  !supportsCycles src &&
    decide (dst ∈ pullList (inputsIntolerant edges supportsCycles)
      nodes.length [src] [])

/-- The distinguishable configuration errors surfaced synchronously to the
control-role caller (spec §7); `nodeCycleExc` is "an illegal cycle without
cycle-tolerance". -/
inductive AudioExc where
  | nodeCycleExc
  deriving DecidableEq

/-- Modelled from the spec: `connect( source, destination )` — registers
`src` as a contributor to `dst`'s input, rejecting at connect time a cycle
in which no participant declares cycle tolerance
(`Node::supportsCycles`). -/
def connect (nodes : List ℕ) (edges : List (ℕ × ℕ))
    (supportsCycles : ℕ → Bool) (src dst : ℕ) :
    Except AudioExc (List (ℕ × ℕ)) :=
  if detectIntolerantCycle nodes edges supportsCycles src dst then
    .error .nodeCycleExc
  else .ok ((dst, src) :: edges)

/-- Modelled from the spec: the internal one-block delay state of a
cycle-tolerant Node — it "must supply the previous callback's output
samples ... to break the recursive dependency". -/
structure FeedbackState where
  lastOut : ℚ

/-- Modelled from the spec: one callback of a minimal feedback loop: the
cycle-tolerant Node supplies its stored previous output on the cyclic edge,
the loop body `f` consumes the external input `x` summed with that edge
value, and the produced block is stored for the next callback.  Returns
(new state, value supplied on the cyclic edge, output produced). -/
def feedbackCallback (f : ℚ → ℚ) (x : ℚ) (s : FeedbackState) :
    FeedbackState × ℚ × ℚ :=
  let edgeValue := s.lastOut
  let out := f (x + edgeValue)
  (⟨out⟩, edgeValue, out)

/-- The feedback loop state after `k` callbacks, starting from silence. -/
def feedbackRun (f : ℚ → ℚ) (ext : ℕ → ℚ) : ℕ → FeedbackState
  | 0 => ⟨0⟩
  | k + 1 => (feedbackCallback f (ext k) (feedbackRun f ext k)).1

/-! ## Input summing (spec §4.2, guide: "multiple inputs, which are
implicitly summed") -/

/-- A silent block of `len` samples. -/
def silence (len : ℕ) : List ℚ := List.replicate len 0

/-- Sample-wise accumulation of a contribution into a summing buffer. -/
def addBuffers (acc contribution : List ℚ) : List ℚ :=
  acc.zipWith (· + ·) contribution

/-- Modelled from the spec: `connect` on an occupied input — "if
destination already has a contributor there, new sources are summed (mixed)
rather than replacing": the new source joins the contributor list. -/
def connectInput (contributors : List ℕ) (src : ℕ) : List ℕ :=
  contributors ++ [src]

/-- Modelled from the spec: the summing loop of `Node::pullInputs`:
each contributor's output — `mixedOutput c`, the source's samples already
up/down-mixed to the input's negotiated channel count — is accumulated
sample-wise into the input's summing buffer, starting from silence. -/
def sumInputs (mixedOutput : ℕ → List ℚ) (len : ℕ)
    (contributors : List ℕ) : List ℚ :=
  contributors.foldl (fun acc c => addBuffers acc (mixedOutput c))
    (silence len)

/-! ## Monitor window size (spec §4.4, guide §monitor) -/

/-- Doubles `p` until it reaches at least `n` (with enough fuel): the
power-of-two rounding loop. -/
def ceilPow2Go (n : ℕ) : ℕ → ℕ → ℕ
  | 0, p => p
  | fuel + 1, p => if n ≤ p then p else ceilPow2Go n fuel (2 * p)

/-- The least power of two that is `≥ n` (for `n ≥ 1`). -/
def ceilPow2 (n : ℕ) : ℕ := ceilPow2Go n n 1

/-- Modelled from the spec: resolution of a `MonitorNode`'s window size
(missing source `MonitorNode::initialize`): "window size is always a power
of two; default equals the Context's frames-per-block"; a requested
non-power-of-two size resolves under the fixed round-up rule.  A request of
`0` means no size was requested at construction. -/
def resolveWindowSize (requested framesPerBlock : ℕ) : ℕ :=
  ceilPow2 (if requested = 0 then framesPerBlock else requested)

/-! ## MonitorSpectralNode spectrum snapshot (spec §4.4) -/

/-- Pointwise average of the window's channels — "if the
`MonitorSpectralNode` has two or more channels, the samples in each channel
will first be averaged". -/
def channelAverage (len : ℕ) (chans : List (List ℚ)) : List ℚ :=
  (chans.foldl addBuffers (silence len)).map fun x =>
    x / (chans.length : ℚ)

/-- Modelled from the spec: the cross-thread-readable state of a
`MonitorSpectralNode` (missing source `cinder/audio/MonitorNode.h`): the
captured window (one list per channel) and the scratch buffer that
`getMagSpectrum` copies into. -/
structure MonitorSpectralState where
  windowSize : ℕ
  windowBuffer : List (List ℚ)
  copiedBuffer : List ℚ

/-- `MonitorNode::getBuffer()`: the latest complete window. -/
def MonitorSpectralState.getBuffer (s : MonitorSpectralState) :
    List (List ℚ) :=
  s.windowBuffer

/-- Modelled from the spec: `MonitorSpectralNode::getMagSpectrum()` —
"first makes a copy of the audio samples, then it computes a forward FFT
transform and finally converts to polar coordinates", channels averaged
first.  The windowing function and the FFT-with-polar-conversion are the
external `dsp` collaborators, taken as parameters; the call overwrites only
the node's scratch copy, and returns the node state together with the
magnitude bins. -/
def MonitorSpectralState.getMagSpectrum (fft windowFn : List ℚ → List ℚ)
    (s : MonitorSpectralState) : MonitorSpectralState × List ℚ :=
  let copied := windowFn (channelAverage s.windowSize s.windowBuffer)
  ({ s with copiedBuffer := copied }, fft copied)

/-! ## Helper lemmas: pull traversal -/

theorem pullList_nil (inputs : ℕ → List ℕ) (fuel : ℕ) (visited : List ℕ) :
    pullList inputs fuel [] visited = visited := by
  rw [pullList.eq_def]

theorem pullList_cons_mem (inputs : ℕ → List ℕ) (fuel : ℕ)
    (n : ℕ) (rest visited : List ℕ) (h : n ∈ visited) :
    pullList inputs fuel (n :: rest) visited =
      pullList inputs fuel rest visited := by
  rw [pullList.eq_def]
  simp [h]

theorem pullList_cons_zero (inputs : ℕ → List ℕ)
    (n : ℕ) (rest visited : List ℕ) (h : n ∉ visited) :
    pullList inputs 0 (n :: rest) visited =
      pullList inputs 0 rest (n :: visited) := by
  rw [pullList.eq_def]
  simp [h]

theorem pullList_cons_succ (inputs : ℕ → List ℕ) (fuel : ℕ)
    (n : ℕ) (rest visited : List ℕ) (h : n ∉ visited) :
    pullList inputs (fuel + 1) (n :: rest) visited =
      pullList inputs (fuel + 1) rest
        (pullList inputs fuel (inputs n) (n :: visited)) := by
  rw [pullList.eq_def]
  simp [h]

/-- Invariants of the memoized pull traversal: the prior memo is preserved
(as a suffix), no Node is recorded twice, every recorded Node belongs to the
Context, every pending Node gets recorded, and — when the fuel covers the
unvisited part of the registry — the recorded set is closed under inputs of
the freshly recorded Nodes. -/
theorem pullList_spec (inputs : ℕ → List ℕ) (nodes : List ℕ)
    (hclosed : ∀ x ∈ nodes, ∀ i ∈ inputs x, i ∈ nodes) :
    ∀ fuel pending visited,
      (∀ n ∈ pending, n ∈ nodes) → (∀ x ∈ visited, x ∈ nodes) →
      visited.Nodup →
      visited <:+ pullList inputs fuel pending visited ∧
      (pullList inputs fuel pending visited).Nodup ∧
      (∀ m ∈ pullList inputs fuel pending visited, m ∈ nodes) ∧
      (∀ n ∈ pending, n ∈ pullList inputs fuel pending visited) ∧
      (nodes.length ≤ fuel + visited.length →
        ∀ m ∈ pullList inputs fuel pending visited, m ∉ visited →
          ∀ i ∈ inputs m, i ∈ pullList inputs fuel pending visited) := by
  intro fuel
  induction fuel using Nat.strong_induction_on with
  | _ fuel ihfuel =>
  intro pending
  induction pending with
  | nil =>
    intro visited hp hv hnd
    rw [pullList_nil]
    exact ⟨List.suffix_refl _, hnd, hv, by simp,
      fun _ m hm hnm => (hnm hm).elim⟩
  | cons n rest ihrest =>
    intro visited hp hv hnd
    have hn : n ∈ nodes := hp n (by simp)
    have hrest : ∀ x ∈ rest, x ∈ nodes := fun x hx => hp x (by simp [hx])
    by_cases hmem : n ∈ visited
    · rw [pullList_cons_mem _ _ _ _ _ hmem]
      obtain ⟨ha, hb, hc, hd, he⟩ := ihrest visited hrest hv hnd
      refine ⟨ha, hb, hc, ?_, he⟩
      intro x hx
      rcases List.mem_cons.mp hx with h | h
      · exact ha.subset (h ▸ hmem)
      · exact hd x h
    · have hv' : ∀ x ∈ n :: visited, x ∈ nodes := by
        intro x hx
        rcases List.mem_cons.mp hx with h | h
        · exact h ▸ hn
        · exact hv x h
      have hnd' : (n :: visited).Nodup := List.nodup_cons.mpr ⟨hmem, hnd⟩
      cases fuel with
      | zero =>
        rw [pullList_cons_zero _ _ _ _ hmem]
        obtain ⟨ha, hb, hc, hd, _⟩ := ihrest (n :: visited) hrest hv' hnd'
        refine ⟨(List.suffix_cons n visited).trans ha, hb, hc, ?_, ?_⟩
        · intro x hx
          rcases List.mem_cons.mp hx with h | h
          · exact ha.subset (by simp [h])
          · exact hd x h
        · intro hfuel m hm hnm i hi
          exfalso
          have hcard : visited.length + 1 ≤ nodes.length := by
            have h1 : (n :: visited).toFinset.card = (n :: visited).length :=
              List.toFinset_card_of_nodup hnd'
            have h2 : (n :: visited).toFinset ⊆ nodes.toFinset := by
              intro y hy
              exact List.mem_toFinset.mpr (hv' y (List.mem_toFinset.mp hy))
            have h3 := Finset.card_le_card h2
            have h4 := nodes.toFinset_card_le
            simp only [h1, List.length_cons] at h3
            omega
          omega
      | succ fuel' =>
        rw [pullList_cons_succ _ _ _ _ _ hmem]
        obtain ⟨ia, ib, ic, idp, ie⟩ :=
          ihfuel fuel' (Nat.lt_succ_self fuel') (inputs n) (n :: visited)
            (hclosed n hn) hv' hnd'
        obtain ⟨ra, rb, rc, rd, re⟩ :=
          ihrest (pullList inputs fuel' (inputs n) (n :: visited)) hrest ic ib
        refine ⟨((List.suffix_cons n visited).trans ia).trans ra, rb, rc,
          ?_, ?_⟩
        · intro x hx
          rcases List.mem_cons.mp hx with h | h
          · exact ra.subset (ia.subset (by simp [h]))
          · exact rd x h
        · intro hfuel m hm hnm i hi
          have hfe : nodes.length ≤ fuel' + (n :: visited).length := by
            simp only [List.length_cons]
            omega
          have hlen : (n :: visited).length ≤
              (pullList inputs fuel' (inputs n) (n :: visited)).length :=
            ia.length_le
          have hfr : nodes.length ≤ (fuel' + 1) +
              (pullList inputs fuel' (inputs n) (n :: visited)).length := by
            simp only [List.length_cons] at hlen
            omega
          by_cases hmi : m ∈ pullList inputs fuel' (inputs n) (n :: visited)
          · by_cases hmn : m = n
            · subst hmn
              exact ra.subset (idp i hi)
            · have hmv : m ∉ n :: visited := by simp [hmn, hnm]
              exact ra.subset (ie hfe m hmi hmv i hi)
          · exact re hfr m hm hmi i hi

/-- Soundness of the traversal: every recorded Node was either already in
the memo or is reachable from a pending Node along input connections. -/
theorem pullList_sound (inputs : ℕ → List ℕ) :
    ∀ fuel pending visited m, m ∈ pullList inputs fuel pending visited →
      m ∈ visited ∨ ∃ n ∈ pending, Reaches inputs n m := by
  intro fuel
  induction fuel using Nat.strong_induction_on with
  | _ fuel ihfuel =>
  intro pending
  induction pending with
  | nil =>
    intro visited m hm
    rw [pullList_nil] at hm
    exact .inl hm
  | cons n rest ihrest =>
    intro visited m hm
    by_cases hmem : n ∈ visited
    · rw [pullList_cons_mem _ _ _ _ _ hmem] at hm
      rcases ihrest visited m hm with h | ⟨x, hx, hr⟩
      · exact .inl h
      · exact .inr ⟨x, by simp [hx], hr⟩
    · cases fuel with
      | zero =>
        rw [pullList_cons_zero _ _ _ _ hmem] at hm
        rcases ihrest (n :: visited) m hm with h | ⟨x, hx, hr⟩
        · rcases List.mem_cons.mp h with h2 | h2
          · exact .inr ⟨n, by simp, by rw [h2]; exact Reaches.refl n⟩
          · exact .inl h2
        · exact .inr ⟨x, by simp [hx], hr⟩
      | succ fuel' =>
        rw [pullList_cons_succ _ _ _ _ _ hmem] at hm
        rcases ihrest _ m hm with h | ⟨x, hx, hr⟩
        · rcases ihfuel fuel' (Nat.lt_succ_self fuel') (inputs n)
              (n :: visited) m h with h2 | ⟨i, hi, hr⟩
          · rcases List.mem_cons.mp h2 with h3 | h3
            · exact .inr ⟨n, by simp, by rw [h3]; exact Reaches.refl n⟩
            · exact .inl h3
          · exact .inr ⟨n, by simp, Reaches.step hi hr⟩
        · exact .inr ⟨x, by simp [hx], hr⟩

/-- A set of Nodes closed under inputs contains everything reachable from
any of its members. -/
theorem reaches_mem_of_closed (inputs : ℕ → List ℕ) (l : List ℕ)
    (hcl : ∀ x ∈ l, ∀ i ∈ inputs x, i ∈ l) :
    ∀ n m, Reaches inputs n m → n ∈ l → m ∈ l := by
  intro n m h
  induction h with
  | refl _ => exact id
  | step hi _ ih => exact fun hn => ih (hcl _ hn _ hi)

/-- C3: within any single callback of the pull traversal, every Node
reachable from the output endpoint executes its processing step exactly
once, even when it is reachable via multiple paths (fan-out), and every
Node registered in the Context's auto-pull set is also pulled exactly once
in that callback. -/
theorem node_pulled_exactly_once (inputs : ℕ → List ℕ) (nodes : List ℕ)
    (output : ℕ) (autoPull : List ℕ)
    (hclosed : ∀ x ∈ nodes, ∀ i ∈ inputs x, i ∈ nodes)
    (hout : output ∈ nodes) (hauto : ∀ a ∈ autoPull, a ∈ nodes) :
    (∀ m, Reaches inputs output m →
      (processedThisCallback inputs nodes output autoPull).count m = 1) ∧
    ∀ a ∈ autoPull,
      (processedThisCallback inputs nodes output autoPull).count a = 1 := by
  have hp : ∀ x ∈ output :: autoPull, x ∈ nodes := by
    intro x hx
    rcases List.mem_cons.mp hx with h | h
    · exact h ▸ hout
    · exact hauto x h
  obtain ⟨_, hb, _, hd, he⟩ :=
    pullList_spec inputs nodes hclosed nodes.length (output :: autoPull) []
      hp (by simp) List.nodup_nil
  simp only [processedThisCallback]
  have hcl : ∀ x ∈ pullList inputs nodes.length (output :: autoPull) [],
      ∀ i ∈ inputs x,
        i ∈ pullList inputs nodes.length (output :: autoPull) [] := by
    intro x hx i hi
    exact he (by simp) x hx (by simp) i hi
  constructor
  · intro m hm
    exact List.count_eq_one_of_mem hb
      (reaches_mem_of_closed inputs _ hcl output m hm (hd output (by simp)))
  · intro a ha
    exact List.count_eq_one_of_mem hb (hd a (by simp [ha]))

/-- Witness for C3: a diamond graph `0 ← 1 ← 3`, `0 ← 2 ← 3` (Node 3 feeds
both 1 and 2, so it is reachable from the output 0 via two paths) plus an
auto-pulled Node 4 detached from the output: both are processed exactly
once in the callback. -/
theorem node_pulled_exactly_once_witness :
    (processedThisCallback
        (fun n => if n = 0 then [1, 2] else
          if n = 1 then [3] else if n = 2 then [3] else [])
        [0, 1, 2, 3, 4] 0 [4]).count 3 = 1 ∧
    (processedThisCallback
        (fun n => if n = 0 then [1, 2] else
          if n = 1 then [3] else if n = 2 then [3] else [])
        [0, 1, 2, 3, 4] 0 [4]).count 4 = 1 :=
  ⟨(node_pulled_exactly_once _ _ 0 [4] (by decide) (by decide)
        (by decide)).1 3
      (Reaches.step (i := 1) (by decide)
        (Reaches.step (i := 3) (by decide) (Reaches.refl 3))),
    (node_pulled_exactly_once _ _ 0 [4] (by decide) (by decide)
        (by decide)).2 4 (by decide)⟩

theorem mem_inputsOf (edges : List (ℕ × ℕ)) (n i : ℕ) :
    i ∈ inputsOf edges n ↔ (n, i) ∈ edges := by
  simp only [inputsOf, List.mem_map, List.mem_filter, beq_iff_eq]
  constructor
  · rintro ⟨e, ⟨he, h1⟩, h2⟩
    have he2 : e = (n, i) := by
      cases e
      simp_all
    exact he2 ▸ he
  · intro h
    exact ⟨(n, i), ⟨h, rfl⟩, rfl⟩

/-- A pull path whose every Node is cycle-intolerant is the same thing as a
path in the intolerant-restricted input graph starting at an intolerant
Node. -/
theorem reachesVia_iff_reaches_intolerant (edges : List (ℕ × ℕ))
    (supportsCycles : ℕ → Bool) (a b : ℕ) :
    ReachesVia (inputsOf edges) (fun n => !supportsCycles n) a b ↔
      (!supportsCycles a) = true ∧
        Reaches (inputsIntolerant edges supportsCycles) a b := by
  constructor
  · intro h
    induction h with
    | refl n hn => exact ⟨hn, Reaches.refl n⟩
    | step hok hi hr ih =>
      refine ⟨hok, Reaches.step ?_ ih.2⟩
      simp only [inputsIntolerant, Bool.not_eq_true'] at hok ⊢
      rw [if_neg (by simp [hok])]
      exact List.mem_filter.mpr ⟨hi, by simp [Bool.not_eq_true', ih.1]⟩
  · rintro ⟨ha, hr⟩
    induction hr with
    | refl n => exact ReachesVia.refl n ha
    | step hi hr ih =>
      rename_i n i m
      simp only [inputsIntolerant] at hi
      by_cases hn : supportsCycles n
      · rw [if_pos hn] at hi
        exact absurd hi (List.not_mem_nil i)
      · rw [if_neg hn] at hi
        have hif := List.mem_filter.mp hi
        exact ReachesVia.step (by simp [hn]) hif.1 (ih hif.2)

/-- C5: a connect operation that introduces a cycle in which no
participating Node declares cycle tolerance is rejected at connect time
with a synchronous configuration error; the same topology with a
cycle-tolerant participant on every such path succeeds, the new edge
appended; and a cycle-tolerant Node supplies the previous callback's output
on the cyclic edge. -/
theorem connect_cycle_check (nodes : List ℕ) (edges : List (ℕ × ℕ))
    (supportsCycles : ℕ → Bool) (src dst : ℕ)
    (hedges : ∀ e ∈ edges, e.1 ∈ nodes ∧ e.2 ∈ nodes)
    (hsrc : src ∈ nodes) :
    (ReachesVia (inputsOf edges) (fun n => !supportsCycles n) src dst →
      connect nodes edges supportsCycles src dst = .error .nodeCycleExc) ∧
    (¬ ReachesVia (inputsOf edges) (fun n => !supportsCycles n) src dst →
      connect nodes edges supportsCycles src dst = .ok ((dst, src) :: edges)) ∧
    (∀ f : ℚ → ℚ, ∀ ext : ℕ → ℚ, ∀ k : ℕ,
      (feedbackCallback f (ext (k + 1)) (feedbackRun f ext (k + 1))).2.1 =
        (feedbackCallback f (ext k) (feedbackRun f ext k)).2.2) := by
  have hcl : ∀ x ∈ nodes,
      ∀ i ∈ inputsIntolerant edges supportsCycles x, i ∈ nodes := by
    intro x hx i hi
    simp only [inputsIntolerant] at hi
    by_cases hsx : supportsCycles x
    · rw [if_pos hsx] at hi
      exact absurd hi (List.not_mem_nil i)
    · rw [if_neg hsx] at hi
      have := (mem_inputsOf edges x i).mp (List.mem_filter.mp hi).1
      exact (hedges (x, i) this).2
  refine ⟨?_, ?_, fun f ext k => rfl⟩
  · intro h
    obtain ⟨hok, hreach⟩ :=
      (reachesVia_iff_reaches_intolerant edges supportsCycles src dst).mp h
    obtain ⟨_, _, _, hd, he⟩ :=
      pullList_spec (inputsIntolerant edges supportsCycles) nodes hcl
        nodes.length [src] [] (by simpa using hsrc) (by simp)
        List.nodup_nil
    have hclres : ∀ x ∈ pullList (inputsIntolerant edges supportsCycles)
        nodes.length [src] [],
        ∀ i ∈ inputsIntolerant edges supportsCycles x,
          i ∈ pullList (inputsIntolerant edges supportsCycles)
            nodes.length [src] [] := by
      intro x hx i hi
      exact he (by simp) x hx (by simp) i hi
    have hdst : dst ∈ pullList (inputsIntolerant edges supportsCycles)
        nodes.length [src] [] :=
      reaches_mem_of_closed _ _ hclres src dst hreach (hd src (by simp))
    simp [connect, detectIntolerantCycle, hok, hdst]
  · intro h
    have hdetect :
        detectIntolerantCycle nodes edges supportsCycles src dst = false := by
      by_contra hcon
      rw [Bool.not_eq_false, detectIntolerantCycle,
        Bool.and_eq_true, decide_eq_true_eq] at hcon
      obtain ⟨hok, hdst⟩ := hcon
      rcases pullList_sound (inputsIntolerant edges supportsCycles)
          nodes.length [src] [] dst hdst with hfalse | ⟨x, hx, hr⟩
      · exact absurd hfalse (List.not_mem_nil dst)
      · have hx' : x = src := by simpa using hx
        exact h ((reachesVia_iff_reaches_intolerant edges supportsCycles
          src dst).mpr ⟨hok, hx' ▸ hr⟩)
    simp [connect, hdetect]

/-- Witness for C5: in the two-Node graph where Node 0 already pulls
Node 1, connecting 0 into an input of 1 closes a cycle.  With no Node
declaring cycle tolerance the connect is rejected with `nodeCycleExc`; with
Node 0 declaring tolerance the same connect succeeds and the edge is
added. -/
theorem connect_cycle_check_witness :
    connect [0, 1] [(0, 1)] (fun _ => false) 0 1 = .error .nodeCycleExc ∧
    connect [0, 1] [(0, 1)] (fun n => n == 0) 0 1 =
      .ok [(1, 0), (0, 1)] :=
  ⟨(connect_cycle_check [0, 1] [(0, 1)] (fun _ => false) 0 1 (by decide)
      (by decide)).1
      (ReachesVia.step (i := 1) (by decide) (by decide)
        (ReachesVia.refl 1 (by decide))),
    (connect_cycle_check [0, 1] [(0, 1)] (fun n => n == 0) 0 1 (by decide)
      (by decide)).2.1
      (fun h => by
        cases h with
        | step hok hi hr => exact absurd hok (by decide))⟩

/-! ## Helper lemmas: Param ramp evaluation -/

/-- Closed form of a single `applyRamp` schedule: the value at sample `n`
is the linear interpolation clamped at the target. -/
theorem paramSample_applyRamp (a b d sr : ℚ) (hd : 0 < d) (hsr : 0 < sr)
    (n : ℕ) :
    paramSample [applyRamp 0 a b d] a sr n =
      a + (b - a) * min ((n : ℚ) / sr / d) 1 := by
  have ht0 : (0 : ℚ) ≤ (n : ℚ) / sr := by positivity
  simp only [paramSample, applyRamp, evalEvents, rampLinear]
  rw [if_neg (not_lt.mpr ht0)]
  by_cases h : (n : ℚ) / sr < 0 + d
  · rw [if_pos h]
    have hlt : (n : ℚ) / sr / d < 1 := by
      rw [div_lt_one hd]
      linarith
    rw [min_eq_left hlt.le]
    ring_nf
  · rw [if_neg h]
    have hge : (1 : ℚ) ≤ (n : ℚ) / sr / d := by
      rw [le_div_iff₀ hd]
      have := not_lt.mp h
      linarith
    rw [min_eq_right hge]
    ring

theorem ramp_progress_mono (sr d : ℚ) (hd : 0 < d) (hsr : 0 < sr)
    {n m : ℕ} (hnm : n ≤ m) :
    min ((n : ℚ) / sr / d) 1 ≤ min ((m : ℚ) / sr / d) 1 := by
  have hc : (n : ℚ) ≤ (m : ℚ) := Nat.cast_le.mpr hnm
  have h2 : (n : ℚ) / sr / d ≤ (m : ℚ) / sr / d := by gcongr
  exact min_le_min h2 le_rfl

/-- C1: a `Param` ramp scheduled via `applyRamp` from `a` to `b` over
duration `d` at samplerate `sr` under the linear ramp function yields a
non-decreasing (for `b > a`) or non-increasing (for `b < a`) per-sample
sequence, equals exactly `b` at sample index `⌈d·sr⌉`, and holds at `b` for
every later sample until the next queued event begins. -/
theorem param_applyRamp_spec (a b d sr tNext dNext c : ℚ)
    (hd : 0 < d) (hsr : 0 < sr) (hNext : d ≤ tNext) :
    (a < b → ∀ n m : ℕ, n ≤ m →
      paramSample [applyRamp 0 a b d] a sr n ≤
        paramSample [applyRamp 0 a b d] a sr m) ∧
    (b < a → ∀ n m : ℕ, n ≤ m →
      paramSample [applyRamp 0 a b d] a sr m ≤
        paramSample [applyRamp 0 a b d] a sr n) ∧
    paramSample [applyRamp 0 a b d] a sr ⌈d * sr⌉₊ = b ∧
    (∀ n : ℕ, ⌈d * sr⌉₊ ≤ n → (n : ℚ) / sr < tNext →
      paramSample [applyRamp 0 a b d, applyRamp tNext b c dNext] a sr n
        = b) := by
  have hceil : ∀ n : ℕ, ⌈d * sr⌉₊ ≤ n → d ≤ (n : ℚ) / sr := by
    intro n hn
    rw [le_div_iff₀ hsr]
    calc d * sr ≤ (⌈d * sr⌉₊ : ℚ) := Nat.le_ceil _
      _ ≤ (n : ℚ) := Nat.cast_le.mpr hn
  refine ⟨?_, ?_, ?_, ?_⟩
  · intro hab n m hnm
    rw [paramSample_applyRamp a b d sr hd hsr n,
      paramSample_applyRamp a b d sr hd hsr m]
    have hmono := ramp_progress_mono sr d hd hsr hnm
    have hba : (0 : ℚ) ≤ b - a := by linarith
    have := mul_le_mul_of_nonneg_left hmono hba
    linarith
  · intro hba n m hnm
    rw [paramSample_applyRamp a b d sr hd hsr n,
      paramSample_applyRamp a b d sr hd hsr m]
    have hmono := ramp_progress_mono sr d hd hsr hnm
    have hba' : b - a ≤ 0 := by linarith
    have := mul_le_mul_of_nonpos_left hmono hba'
    linarith
  · rw [paramSample_applyRamp a b d sr hd hsr]
    have h1 : d ≤ (⌈d * sr⌉₊ : ℚ) / sr := hceil _ le_rfl
    have h2 : (1 : ℚ) ≤ (⌈d * sr⌉₊ : ℚ) / sr / d := by
      rw [le_div_iff₀ hd]
      linarith
    rw [min_eq_right h2]
    ring
  · intro n hn ht
    have hdn : d ≤ (n : ℚ) / sr := hceil n hn
    have ht0 : (0 : ℚ) ≤ (n : ℚ) / sr := by positivity
    simp only [paramSample, applyRamp, evalEvents]
    rw [if_neg (not_lt.mpr ht0),
      if_neg (not_lt.mpr (by linarith : (0 : ℚ) + d ≤ (n : ℚ) / sr)),
      if_pos ht]

/-! ## Helper lemmas: Param block evaluation and C9 determinism -/

/-- Splitting a run of callbacks is invisible in the produced samples: a
run equals the single block covering the same total frame count. -/
theorem paramEvalRunFrom_eq_block (events : List ParamEvent) (v sr : ℚ) :
    ∀ (bs : List ℕ) (start : ℕ),
      paramEvalRunFrom events v sr start bs =
        paramEvalBlock events v sr start bs.sum := by
  intro bs
  induction bs with
  | nil =>
    intro start
    simp [paramEvalRunFrom, paramEvalBlock]
  | cons len rest ih =>
    intro start
    simp only [paramEvalRunFrom, List.sum_cons, paramEvalBlock,
      ih (start + len)]
    rw [List.range_add, List.map_append, List.map_map]
    simp [Function.comp, Nat.add_assoc]

/-- C9: Param evaluation is deterministic — for an identical event queue
and identical elapsed sample count, the produced per-sample output values
are identical whatever the partition of the timeline into callback blocks
(callback timing jitter). -/
theorem param_eval_deterministic (events : List ParamEvent) (v sr : ℚ)
    (bs1 bs2 : List ℕ) (h : bs1.sum = bs2.sum) :
    paramEvalRun events v sr bs1 = paramEvalRun events v sr bs2 := by
  simp only [paramEvalRun, paramEvalRunFrom_eq_block, h]

/-- Witness for C9: the blocks `[1, 2]` and `[3]` cover the same three
samples of a ramp and produce identical output. -/
theorem param_eval_deterministic_witness :
    ([1, 2] : List ℕ).sum = ([3] : List ℕ).sum ∧
    paramEvalRun [applyRamp 0 0 1 1] 0 2 [1, 2] =
      paramEvalRun [applyRamp 0 0 1 1] 0 2 [3] :=
  ⟨by decide, param_eval_deterministic [applyRamp 0 0 1 1] 0 2 [1, 2] [3]
    (by decide)⟩

/-- Witness for C1: ramping 0 → 1 over 1 s at samplerate 2 reaches exactly
1 at sample index `⌈1·2⌉ = 2` and still reads 1 at sample 5, before the
next event queued at 3 s. -/
theorem param_applyRamp_spec_witness :
    paramSample [applyRamp 0 0 1 1] 0 2 ⌈(1 : ℚ) * 2⌉₊ = 1 ∧
    paramSample [applyRamp 0 0 1 1, applyRamp 3 1 0 1] 0 2 5 = 1 :=
  ⟨(param_applyRamp_spec 0 1 1 2 3 1 0 (by norm_num) (by norm_num)
      (by norm_num)).2.2.1,
    (param_applyRamp_spec 0 1 1 2 3 1 0 (by norm_num) (by norm_num)
      (by norm_num)).2.2.2 5 (by rw [Nat.ceil_le]; norm_num)
      (by norm_num)⟩

/-! ## C2: BufferDynamic resizing contract -/

theorem setSize_capacity_mono (b : BufferDynamic) (f c : ℕ) :
    b.mAllocatedSize ≤ (b.setSize f c).mAllocatedSize := by
  by_cases h : f * c ≤ b.mAllocatedSize
  · simp [BufferDynamic.setSize, h]
  · simp [BufferDynamic.setSize, h]
    omega

/-- C2: a resize request of a growable Buffer whose required storage
(frames×channels) fits the current capacity never reallocates the backing
store; a larger requirement reallocates to exactly the new required size;
no resize operation reduces capacity, and `shrinkToFit` reduces it to
exactly the current logical size. -/
theorem bufferDynamic_resize_contract (b : BufferDynamic)
    (frames channels : ℕ) :
    (frames * channels ≤ b.mAllocatedSize →
      (b.setSize frames channels).allocationId = b.allocationId ∧
      (b.setSize frames channels).mAllocatedSize = b.mAllocatedSize) ∧
    (b.mAllocatedSize < frames * channels →
      (b.setSize frames channels).mAllocatedSize = frames * channels ∧
      (b.setSize frames channels).allocationId ≠ b.allocationId) ∧
    b.mAllocatedSize ≤ (b.setSize frames channels).mAllocatedSize ∧
    b.mAllocatedSize ≤ (b.setNumFrames frames).mAllocatedSize ∧
    b.mAllocatedSize ≤ (b.setNumChannels channels).mAllocatedSize ∧
    b.shrinkToFit.mAllocatedSize = b.size := by
  refine ⟨?_, ?_, setSize_capacity_mono b frames channels,
    setSize_capacity_mono b frames b.mNumChannels,
    setSize_capacity_mono b b.mNumFrames channels, ?_⟩
  · intro h
    simp [BufferDynamic.setSize, h]
  · intro h
    have h' : ¬ frames * channels ≤ b.mAllocatedSize := not_le.mpr h
    simp [BufferDynamic.setSize, h']
  · by_cases h : b.mAllocatedSize = b.size <;>
      simp [BufferDynamic.shrinkToFit, h]

/-- Witness for C2: an 8-sample-capacity buffer resized within capacity
keeps its allocation; resized to 10 samples it reallocates to exactly
10. -/
theorem bufferDynamic_resize_contract_witness :
    ((BufferDynamic.mk 4 2 8 0).setSize 2 2).allocationId = 0 ∧
    ((BufferDynamic.mk 4 2 8 0).setSize 5 2).mAllocatedSize = 10 :=
  ⟨((bufferDynamic_resize_contract ⟨4, 2, 8, 0⟩ 2 2).1 (by decide)).1,
    ((bufferDynamic_resize_contract ⟨4, 2, 8, 0⟩ 5 2).2.1 (by decide)).1⟩

/-! ## C4: disabling the Context halts audio time -/

/-- C4: while the owning Context is disabled no Node processes and no
Param advances: two consecutive callbacks leave every Node's Param
evaluation cursor and the processed-frame count unchanged, regardless of
the enabled state of individual Nodes. -/
theorem context_disable_halts_params (s : ContextState) (fpb : ℕ)
    (hs : s.enabled = false) :
    (∀ node, (contextCallback fpb (contextCallback fpb s)).paramCursor node
      = s.paramCursor node) ∧
    (contextCallback fpb (contextCallback fpb s)).numProcessedFrames
      = s.numProcessedFrames ∧
    (∀ ne : ℕ → Bool, ∀ node,
      (contextCallback fpb (contextCallback fpb
        (contextDisable { s with nodeEnabled := ne }))).paramCursor node
      = s.paramCursor node) := by
  have h1 : contextCallback fpb s = s := by simp [contextCallback, hs]
  refine ⟨?_, ?_, ?_⟩
  · intro node
    rw [h1, h1]
  · rw [h1, h1]
  · intro ne node
    simp [contextCallback, contextDisable]

/-- Witness for C4: a concrete disabled Context keeps its Param cursor
through two 512-frame callbacks. -/
theorem context_disable_halts_params_witness :
    (contextCallback 512 (contextCallback 512
      (ContextState.mk false 3 (fun _ => 7) (fun _ => true)))).paramCursor 0
    = (ContextState.mk false 3 (fun _ => 7) (fun _ => true)).paramCursor 0 :=
  (context_disable_halts_params ⟨false, 3, fun _ => 7, fun _ => true⟩ 512
    rfl).1 0

/-! ## C10: getMagSpectrum does not modify the captured window -/

/-- C10: `MonitorSpectralNode::getMagSpectrum()` computes on a copy of the
captured samples: the node's window buffer (and window size) are unchanged
by the call, so `getBuffer()` still returns the unmodified window and a
repeated `getMagSpectrum()` on the same snapshot returns the same
spectrum. -/
theorem getMagSpectrum_preserves_window (fft windowFn : List ℚ → List ℚ)
    (s : MonitorSpectralState) :
    ((s.getMagSpectrum fft windowFn).1).getBuffer = s.getBuffer ∧
    ((s.getMagSpectrum fft windowFn).1).windowSize = s.windowSize ∧
    ((s.getMagSpectrum fft windowFn).1.getMagSpectrum fft windowFn).2 =
      (s.getMagSpectrum fft windowFn).2 :=
  ⟨rfl, rfl, rfl⟩

/-! ## C6: multiple sources on one input are summed -/

theorem addBuffers_length (acc c : List ℚ) :
    (addBuffers acc c).length = min acc.length c.length := by
  simp [addBuffers]

theorem silence_getD : ∀ len i : ℕ, (silence len).getD i 0 = 0 := by
  intro len
  induction len with
  | zero =>
    intro i
    simp [silence]
  | succ n ih =>
    intro i
    cases i with
    | zero => simp [silence]
    | succ j =>
      have h : silence (n + 1) = 0 :: silence n := by
        simp [silence, List.replicate_succ]
      rw [h, List.getD_cons_succ]
      exact ih j

theorem addBuffers_getD :
    ∀ acc contribution : List ℚ, acc.length = contribution.length →
      ∀ i : ℕ, (addBuffers acc contribution).getD i 0 =
        acc.getD i 0 + contribution.getD i 0 := by
  intro acc
  induction acc with
  | nil =>
    intro c hc i
    cases c with
    | nil => simp [addBuffers]
    | cons y ys => simp at hc
  | cons x xs ih =>
    intro c hc i
    cases c with
    | nil => simp at hc
    | cons y ys =>
      cases i with
      | zero => simp [addBuffers]
      | succ j =>
        simp only [addBuffers, List.zipWith_cons_cons, List.getD_cons_succ]
        exact ih ys (by simpa using hc) j

/-- The summing fold, pointwise: starting from `init`, accumulating every
contributor adds the sample-wise sum of the contributions. -/
theorem sumInputs_foldl (mixedOutput : ℕ → List ℚ) (len : ℕ) :
    ∀ (l : List ℕ) (init : List ℚ), init.length = len →
      (∀ x ∈ l, (mixedOutput x).length = len) →
      (l.foldl (fun acc x => addBuffers acc (mixedOutput x)) init).length
        = len ∧
      ∀ i : ℕ,
        (l.foldl (fun acc x => addBuffers acc (mixedOutput x)) init).getD i 0
          = init.getD i 0 + (l.map fun x => (mixedOutput x).getD i 0).sum := by
  intro l
  induction l with
  | nil =>
    intro init hi hl
    exact ⟨hi, by simp⟩
  | cons x xs ih =>
    intro init hi hl
    have hx : (mixedOutput x).length = len := hl x (by simp)
    have hlen : (addBuffers init (mixedOutput x)).length = len := by
      rw [addBuffers_length, hi, hx, min_self]
    obtain ⟨h1, h2⟩ := ih (addBuffers init (mixedOutput x)) hlen
      (fun y hy => hl y (by simp [hy]))
    refine ⟨by simpa using h1, ?_⟩
    intro i
    simp only [List.foldl_cons]
    rw [h2 i, addBuffers_getD init (mixedOutput x) (by rw [hi, hx]) i]
    simp only [List.map_cons, List.sum_cons]
    ring

/-- C6: when several source Nodes are connected to the same input, the
input delivered to the destination equals the sample-wise sum of the
sources' (channel-matched) outputs, and a later connect to an occupied
input adds a contributor rather than replacing the existing ones. -/
theorem sumInputs_spec (mixedOutput : ℕ → List ℚ) (len : ℕ)
    (contributors : List ℕ) (src : ℕ)
    (hlen : ∀ c ∈ connectInput contributors src,
      (mixedOutput c).length = len) :
    (sumInputs mixedOutput len (connectInput contributors src)).length
      = len ∧
    (∀ i : ℕ,
      (sumInputs mixedOutput len (connectInput contributors src)).getD i 0 =
        ((connectInput contributors src).map
          fun c => (mixedOutput c).getD i 0).sum) ∧
    (∀ i : ℕ,
      (sumInputs mixedOutput len (connectInput contributors src)).getD i 0 =
        (sumInputs mixedOutput len contributors).getD i 0 +
          (mixedOutput src).getD i 0) := by
  have hsil : (silence len).length = len := by simp [silence]
  have hold : ∀ c ∈ contributors, (mixedOutput c).length = len :=
    fun c hc => hlen c (by simp [connectInput, hc])
  obtain ⟨h1, h2⟩ := sumInputs_foldl mixedOutput len
    (connectInput contributors src) (silence len) hsil hlen
  obtain ⟨h1', h2'⟩ := sumInputs_foldl mixedOutput len contributors
    (silence len) hsil hold
  simp only [sumInputs]
  refine ⟨h1, fun i => ?_, fun i => ?_⟩
  · rw [h2 i, silence_getD]
    ring
  · rw [h2 i, h2' i, silence_getD]
    simp [connectInput]

/-- Witness for C6: two sources on one input: the delivered samples are
the pointwise sums, and connecting source 1 to the input already fed by
source 0 keeps source 0 contributing. -/
theorem sumInputs_spec_witness :
    (sumInputs (fun c => if c = 0 then [1, 2] else [3, 4]) 2
      (connectInput [0] 1)).getD 0 0 =
      (sumInputs (fun c => if c = 0 then [1, 2] else [3, 4]) 2 [0]).getD 0 0
        + ((fun c => if c = 0 then ([1, 2] : List ℚ) else [3, 4]) 1).getD
            0 0 :=
  (sumInputs_spec (fun c => if c = 0 then [1, 2] else [3, 4]) 2 [0] 1
    (by decide)).2.2 0

/-! ## C8: Monitor window size resolution -/

theorem ceilPow2Go_pow (n : ℕ) :
    ∀ fuel p : ℕ, (∃ i, p = 2 ^ i) → ∃ k, ceilPow2Go n fuel p = 2 ^ k := by
  intro fuel
  induction fuel with
  | zero =>
    intro p hp
    simpa [ceilPow2Go] using hp
  | succ f ih =>
    intro p hp
    by_cases h : n ≤ p
    · simpa [ceilPow2Go, h] using hp
    · simp only [ceilPow2Go, if_neg h]
      apply ih
      obtain ⟨i, hi⟩ := hp
      exact ⟨i + 1, by rw [hi]; ring⟩

theorem ceilPow2Go_pow_eq :
    ∀ fuel i j : ℕ, i ≤ j → 2 ^ j ≤ 2 ^ fuel * 2 ^ i →
      ceilPow2Go (2 ^ j) fuel (2 ^ i) = 2 ^ j := by
  intro fuel
  induction fuel with
  | zero =>
    intro i j hij hb
    simp only [ceilPow2Go]
    have h1 : (2 : ℕ) ^ i ≤ 2 ^ j := Nat.pow_le_pow_right (by norm_num) hij
    simp only [pow_zero, one_mul] at hb
    omega
  | succ f ih =>
    intro i j hij hb
    by_cases h : 2 ^ j ≤ 2 ^ i
    · have h1 : (2 : ℕ) ^ i ≤ 2 ^ j := Nat.pow_le_pow_right (by norm_num) hij
      simp only [ceilPow2Go, if_pos h]
      omega
    · simp only [ceilPow2Go, if_neg h]
      have hij' : i + 1 ≤ j := by
        rcases Nat.lt_or_ge i j with hlt | hge
        · omega
        · exact absurd (Nat.pow_le_pow_right (by norm_num) hge) h
      have he : (2 : ℕ) * 2 ^ i = 2 ^ (i + 1) := by ring
      rw [he]
      apply ih _ _ hij'
      calc (2 : ℕ) ^ j ≤ 2 ^ (f + 1) * 2 ^ i := hb
        _ = 2 ^ f * 2 ^ (i + 1) := by ring

theorem ceilPow2_pow (j : ℕ) : ceilPow2 (2 ^ j) = 2 ^ j := by
  show ceilPow2Go (2 ^ j) (2 ^ j) (2 ^ 0) = 2 ^ j
  apply ceilPow2Go_pow_eq (2 ^ j) 0 j (Nat.zero_le j)
  simp only [pow_zero, mul_one]
  exact Nat.pow_le_pow_right (by norm_num) (Nat.le_of_lt (Nat.lt_two_pow j))

/-- C8: a `MonitorNode`'s window frame count is always a power of two;
when no size is requested it defaults to the Context's frames-per-block;
a requested non-power-of-two size such as 1000 resolves under the fixed
round-up rule to 1024. -/
theorem monitor_window_size_spec (framesPerBlock : ℕ)
    (hfpb : ∃ k, framesPerBlock = 2 ^ k) :
    (∀ requested : ℕ,
      ∃ k, resolveWindowSize requested framesPerBlock = 2 ^ k) ∧
    resolveWindowSize 0 framesPerBlock = framesPerBlock ∧
    resolveWindowSize 1000 framesPerBlock = 1024 := by
  obtain ⟨k, hk⟩ := hfpb
  refine ⟨?_, ?_, ?_⟩
  · intro requested
    simp only [resolveWindowSize, ceilPow2]
    exact ceilPow2Go_pow _ _ 1 ⟨0, rfl⟩
  · simp only [resolveWindowSize, if_pos rfl, hk]
    exact ceilPow2_pow k
  · simp only [resolveWindowSize, if_neg (by norm_num : (1000 : ℕ) ≠ 0)]
    decide

/-- Witness for C8: with the default 512 frames per block the window
defaults to 512 and a requested size of 1000 resolves to 1024. -/
theorem monitor_window_size_spec_witness :
    resolveWindowSize 0 512 = 512 ∧ resolveWindowSize 1000 512 = 1024 :=
  ⟨(monitor_window_size_spec 512 ⟨9, by norm_num⟩).2.1,
    (monitor_window_size_spec 512 ⟨9, by norm_num⟩).2.2⟩

end Cinder
